import Mathlib

/-!
Verification of the transaction-message core of a Solana Go SDK:
account merging and ordering (`NewMessage`), wire serialization
(`Message.Serialize`), wire parsing (`MessageDeserialize`) and the
variable-length integer codec (`UintToVarLenBytes`).

Go machine integers are modelled as `Nat` with explicit `% 256` where a
cast to `byte`/`uint8` occurs.  A Go panic (out-of-range slice index) is
modelled as an explicit `Res.panic` outcome.  The nondeterministic
iteration order of the Go `map` used by `NewMessage` is modelled by an
explicit `entries` parameter; theorems quantify over permutations of the
deterministic map content.
-/

namespace SolanaSdk

/-- Model of `common.PublicKey`, a Go `[32]byte`.  The length-32 and
byte-range facts are carried as a separate well-formedness predicate. -/
structure PublicKey where
  bytes : List Nat
deriving DecidableEq, Repr

/-- Well-formedness of a public key: exactly 32 bytes. -/
def PublicKey.wf (k : PublicKey) : Prop :=
  k.bytes.length = 32 ∧ ∀ b ∈ k.bytes, b < 256

instance (k : PublicKey) : Decidable k.wf := by
  unfold PublicKey.wf; infer_instance

/-- Model of `common.ZeroPublicKey`, the all-zero key. -/
def ZeroPublicKey : PublicKey := ⟨List.replicate 32 0⟩

/-- Model of `types.AccountMeta`. -/
structure AccountMeta where
  pubKey : PublicKey
  isSigner : Bool
  isWritable : Bool
deriving DecidableEq, Repr

/-- Model of `types.Instruction` (a raw instruction: program id, account
metas, opaque payload bytes). -/
structure Instruction where
  programID : PublicKey
  accounts : List AccountMeta
  data : List Nat
deriving DecidableEq, Repr

/-- Model of `types.CompiledInstruction`. -/
structure CompiledInstruction where
  programIDIndex : Nat
  accounts : List Nat
  data : List Nat
deriving DecidableEq, Repr

/-- Model of `types.MessageHeader` (three `uint8` fields; both creation
sites keep them below 256). -/
structure MessageHeader where
  numRequireSignatures : Nat
  numReadonlySignedAccounts : Nat
  numReadonlyUnsignedAccounts : Nat
deriving DecidableEq, Repr

/-- Model of `types.Message`. -/
structure Message where
  header : MessageHeader
  accounts : List PublicKey
  recentBlockHash : String
  instructions : List CompiledInstruction
deriving DecidableEq, Repr

/-- Outcome of a Go function that can return a value, return an error,
or panic at runtime. -/
inductive Res (α : Type) where
  | panic : Res α
  | err : String → Res α
  | ok : α → Res α
deriving DecidableEq, Repr

/-! ## Varint codec (`common/byte.go`) -/

/-- Model of the byte-writing loop of `binary.PutUvarint` into the
10-byte buffer allocated by `UintToVarLenBytes` (`binary.MaxVarintLen64`
is 10).  Emits the little-endian base-128 digits of `n`, continuation
bit set on all but the last byte; for `n < 2^64` this is the minimal
varint encoding of `n`. -/
def putUvarintLoop : Nat → Nat → List Nat
  | 0, _ => []
  | fuel + 1, n => if n < 128 then [n] else (n % 128 + 128) :: putUvarintLoop fuel (n / 128)

/-- Bytes that `binary.PutUvarint` writes for `n` (before zero padding
to the full 10-byte buffer). -/
def goVarint (n : Nat) : List Nat := putUvarintLoop 10 n

/-- Model of `common.trimTrailingZeroByte`: repeatedly drop a trailing
zero byte; the loop condition `len(*b) >= 0` still holds on the empty
slice, where indexing position `len-1` panics (`none`). -/
def trimTrailingZeroByte (b : List Nat) : Option (List Nat) :=
  let r := b.reverse.dropWhile (fun x => decide (x = 0))
  if r.isEmpty then none else some r.reverse

/-- Model of `common.UintToVarLenBytes`: write the varint into a 10-byte
zero-initialized buffer, then trim trailing zero bytes.  `none` models
the panic on input 0. -/
def UintToVarLenBytes (l : Nat) : Option (List Nat) :=
  trimTrailingZeroByte (goVarint l ++ List.replicate (10 - (goVarint l).length) 0)

/-- Modelled from the spec: `parseUvarint` lives in the `types` package
but is absent from `src/`.  Per spec §4.1 it consumes bytes from the
cursor until a byte with the continuation bit clear, failing with a
decode error if the buffer is exhausted first or more than 10 bytes
would be consumed. -/
def parseUvarintAux : Nat → List Nat → Nat → Nat → Except String (Nat × List Nat)
  | _, [], _, _ => Except.error "parse uvarint error: data is empty"
  | 0, _ :: _, _, _ => Except.error "parse uvarint error: overflow"
  | fuel + 1, b :: rest, shift, acc =>
    if b < 128 then Except.ok (acc + b * 2 ^ shift, rest)
    else parseUvarintAux fuel rest (shift + 7) (acc + b % 128 * 2 ^ shift)

/-- Modelled from the spec: the `parseUvarint` helper used by
`MessageDeserialize`.  On failure the cursor is unchanged and the
returned value is 0 (which the header loop of `MessageDeserialize`
silently accepts). -/
def parseUvarint (md : List Nat) : Except String (Nat × List Nat) :=
  parseUvarintAux 10 md 0 0

/-! ## Base58 codec (external dependency) -/

/-- Modelled from the spec: the externally delegated base58 text codec
(spec §3, §6; the dependency is not part of this repository).  Standard
Bitcoin alphabet. -/
def base58Alphabet : List Char :=
  "123456789ABCDEFGHJKLMNPQRSTUVWXYZabcdefghijkmnopqrstuvwxyz".data

/-- Value of one base58 digit, `none` for a character outside the
alphabet. -/
def b58CharVal (c : Char) : Option Nat :=
  base58Alphabet.findIdx? (fun x => decide (x = c))

/-- Big-endian base-58 accumulation of a digit string; fails on the
first invalid character. -/
def decodeB58Num (cs : List Char) : Option Nat :=
  cs.foldl (fun acc c => acc.bind (fun n => (b58CharVal c).map (fun v => n * 58 + v))) (some 0)

/-- Minimal big-endian byte representation of `n` (fuel-driven; the
fuel `n` dominates the number of base-256 digits). -/
def natToBytesBEAux : Nat → Nat → List Nat
  | 0, _ => []
  | fuel + 1, n => if n = 0 then [] else natToBytesBEAux fuel (n / 256) ++ [n % 256]

/-- Minimal big-endian bytes of `n`. -/
def natToBytesBE (n : Nat) : List Nat := natToBytesBEAux n n

/-- Modelled from the spec: base58 decoding — leading `'1'` characters
become leading zero bytes, the rest is a base-58 number; fails exactly
when some character is outside the alphabet. -/
def base58Decode (s : String) : Except String (List Nat) :=
  let cs := s.data
  let zcount := (cs.takeWhile (fun c => decide (c = '1'))).length
  let rest := cs.dropWhile (fun c => decide (c = '1'))
  match decodeB58Num rest with
  | none => Except.error "invalid base58 digit"
  | some n => Except.ok (List.replicate zcount 0 ++ natToBytesBE n)

/-- Minimal base-58 digit string of `n` (fuel-driven). -/
def natToB58Aux : Nat → Nat → List Char
  | 0, _ => []
  | fuel + 1, n => if n = 0 then [] else natToB58Aux fuel (n / 58) ++ [base58Alphabet.getD (n % 58) '1']

/-- Modelled from the spec: base58 encoding — leading zero bytes become
`'1'` characters, the rest is encoded as a base-58 number. -/
def base58Encode (bs : List Nat) : String :=
  let zcount := (bs.takeWhile (fun b => decide (b = 0))).length
  let rest := bs.dropWhile (fun b => decide (b = 0))
  let n := rest.foldl (fun a b => a * 256 + b % 256) 0
  String.mk (List.replicate zcount '1' ++ natToB58Aux n n)

/-! ## Account merging (`NewMessage`, first loop of `types/message.go`) -/

/-- Model of the account-merging update in `NewMessage`
(`message.go:146-155`): if the key is already present, OR the flags into
the existing entry in place; otherwise add the new entry. -/
def addAccountMeta : List AccountMeta → AccountMeta → List AccountMeta
  | [], a => [a]
  | b :: rest, a =>
    if b.pubKey = a.pubKey then
      ⟨b.pubKey, b.isSigner || a.isSigner, b.isWritable || a.isWritable⟩ :: rest
    else b :: addAccountMeta rest a

/-- Model of the program-id insertion in `NewMessage`
(`message.go:137-145`): insert a readonly unsigned entry only when the
key is absent; an existing entry is left untouched. -/
def addProgramID (m : List AccountMeta) (pid : PublicKey) : List AccountMeta :=
  if m.any (fun b => decide (b.pubKey = pid)) then m else m ++ [⟨pid, false, false⟩]

/-- Content of the `accountMap` built by the first loop of `NewMessage`,
as an association list keyed by `pubKey` (the Go `map` content is
deterministic; only its iteration order is not). -/
def accountMap (instructions : List Instruction) : List AccountMeta :=
  instructions.foldl
    (fun m ins => ins.accounts.foldl addAccountMeta (addProgramID m ins.programID)) []

/-! ## Account ordering and compilation (`NewMessage`, rest) -/

/-- One step of the `classify` closure of `NewMessage`
(`message.go:162-176`): append the key to the bucket selected by its
merged flags. -/
def classifyStep (bk : List PublicKey × List PublicKey × List PublicKey × List PublicKey)
    (a : AccountMeta) : List PublicKey × List PublicKey × List PublicKey × List PublicKey :=
  if a.isSigner then
    if a.isWritable then (bk.1 ++ [a.pubKey], bk.2.1, bk.2.2.1, bk.2.2.2)
    else (bk.1, bk.2.1 ++ [a.pubKey], bk.2.2.1, bk.2.2.2)
  else
    if a.isWritable then (bk.1, bk.2.1, bk.2.2.1 ++ [a.pubKey], bk.2.2.2)
    else (bk.1, bk.2.1, bk.2.2.1, bk.2.2.2 ++ [a.pubKey])

/-- Classification pass over the map entries in a given iteration order:
buckets (writable-signed, read-only-signed, writable-unsigned,
read-only-unsigned). -/
def classifyAll (l : List AccountMeta) :
    List PublicKey × List PublicKey × List PublicKey × List PublicKey :=
  l.foldl classifyStep ([], [], [], [])

/-- Replace-or-append insertion for the `publicKeyToIdx` Go map
(`message.go:196-199`); a later write for the same key overwrites. -/
def idxMapInsert : List (PublicKey × Nat) → PublicKey → Nat → List (PublicKey × Nat)
  | [], k, v => [(k, v)]
  | (k', v') :: rest, k, v =>
    if k' = k then (k, v) :: rest else (k', v') :: idxMapInsert rest k v

/-- Content of the `publicKeyToIdx` map: position of each key in the
final account list (last write wins). -/
def publicKeyToIdx (pks : List PublicKey) : List (PublicKey × Nat) :=
  pks.enum.foldl (fun m p => idxMapInsert m p.2 p.1) []

/-- Go map lookup on `publicKeyToIdx`; a missing key yields the zero
value 0. -/
def lookupPkIdx (m : List (PublicKey × Nat)) (k : PublicKey) : Nat :=
  match m.find? (fun p => decide (p.1 = k)) with
  | some p => p.2
  | none => 0

/-- Entries the classification loop of `NewMessage` actually visits:
all of them, except that a designated fee payer is skipped
(`message.go:177-188`). -/
def nmToClassify (feePayer : PublicKey) (entries : List AccountMeta) : List AccountMeta :=
  if feePayer = ZeroPublicKey then entries
  else entries.filter (fun a => !(decide (feePayer = a.pubKey)))

/-- The `writableSignedAccount` bucket after the optional fee-payer
prepend (`message.go:184`). -/
def nmWS (feePayer : PublicKey) (entries : List AccountMeta) : List PublicKey :=
  if feePayer = ZeroPublicKey then (classifyAll (nmToClassify feePayer entries)).1
  else feePayer :: (classifyAll (nmToClassify feePayer entries)).1

/-- The `readOnlySignedAccount` bucket. -/
def nmROS (feePayer : PublicKey) (entries : List AccountMeta) : List PublicKey :=
  (classifyAll (nmToClassify feePayer entries)).2.1

/-- The `writableUnsignedAccount` bucket. -/
def nmWU (feePayer : PublicKey) (entries : List AccountMeta) : List PublicKey :=
  (classifyAll (nmToClassify feePayer entries)).2.2.1

/-- The `readOnlyUnsignedAccount` bucket. -/
def nmRU (feePayer : PublicKey) (entries : List AccountMeta) : List PublicKey :=
  (classifyAll (nmToClassify feePayer entries)).2.2.2

/-- The final canonical account list (`publicKeys`,
`message.go:191-195`). -/
def nmPublicKeys (feePayer : PublicKey) (entries : List AccountMeta) : List PublicKey :=
  nmWS feePayer entries ++ nmROS feePayer entries ++ nmWU feePayer entries ++
    nmRU feePayer entries

/-- Model of `types.NewMessage` (`message.go:134-224`).  `entries` is
the iteration order in which the Go runtime yields the `accountMap`
values (`for _, account := range accountMap`); it is an arbitrary
permutation of `accountMap instructions`. -/
def NewMessage (feePayer : PublicKey) (instructions : List Instruction)
    (recentBlockHash : String) (entries : List AccountMeta) : Message :=
  let publicKeys := nmPublicKeys feePayer entries
  let pkIdx := publicKeyToIdx publicKeys
  let compiledInstructions := instructions.map (fun ins =>
    { programIDIndex := lookupPkIdx pkIdx ins.programID
      accounts := ins.accounts.map (fun a => lookupPkIdx pkIdx a.pubKey)
      data := ins.data })
  { header :=
      { numRequireSignatures :=
          ((nmWS feePayer entries).length + (nmROS feePayer entries).length) % 256
        numReadonlySignedAccounts := (nmROS feePayer entries).length % 256
        numReadonlyUnsignedAccounts := (nmRU feePayer entries).length % 256 }
    accounts := publicKeys
    recentBlockHash := recentBlockHash
    instructions := compiledInstructions }

/-! ## Serialization (`Message.Serialize`, `message.go:25-54`) -/

/-- Wire bytes of one compiled instruction: raw program index byte,
varint account count, raw index bytes, raw payload-length byte, payload.
`none` models the panic of `UintToVarLenBytes` on a zero count. -/
def serializeCompiled (ins : CompiledInstruction) : Option (List Nat) :=
  match UintToVarLenBytes ins.accounts.length with
  | none => none
  | some cnt =>
    some ([ins.programIDIndex % 256] ++ cnt ++ ins.accounts.map (· % 256) ++
      [ins.data.length % 256] ++ ins.data)

/-- Wire bytes of the instruction section of a message. -/
def serializeInstrList : List CompiledInstruction → Option (List Nat)
  | [] => some []
  | ins :: rest =>
    match serializeCompiled ins with
    | none => none
    | some bs => (serializeInstrList rest).map (bs ++ ·)

/-- Model of `Message.Serialize`: header bytes, varint account count,
32-byte keys, decoded block hash bytes (no length check!), varint
instruction count, instruction section.  Sub-computations are evaluated
in source order so that panics and the base58 error surface exactly as
in Go. -/
def Message.serialize (m : Message) : Res (List Nat) :=
  match UintToVarLenBytes m.accounts.length with
  | none => Res.panic
  | some accCnt =>
    match base58Decode m.recentBlockHash with
    | Except.error e => Res.err e
    | Except.ok blockHash =>
      match UintToVarLenBytes m.instructions.length with
      | none => Res.panic
      | some insCnt =>
        match serializeInstrList m.instructions with
        | none => Res.panic
        | some insBytes =>
          Res.ok ([m.header.numRequireSignatures % 256,
              m.header.numReadonlySignedAccounts % 256,
              m.header.numReadonlyUnsignedAccounts % 256] ++
            accCnt ++ (m.accounts.map PublicKey.bytes).flatten ++
            blockHash ++ insCnt ++ insBytes)

/-! ## Deserialization (`MessageDeserialize`, `message.go:56-132`) -/

/-- Header-field read (`message.go:61-67`): the field is parsed as a
varint but the parse error itself is ignored — only `t > 255` aborts;
on a failed parse the value is 0 and the cursor is unchanged, so the
loop silently continues. -/
def parseHeaderByte (md : List Nat) : Res (Nat × List Nat) :=
  match parseUvarint md with
  | Except.ok (t, md') => if t > 255 then Res.err "message header parse error" else Res.ok (t, md')
  | Except.error _ => Res.ok (0, md)

/-- Read `n` 32-byte account keys (`message.go:73-77`); the total length
was checked upfront, so this is a straight chunking. -/
def readKeys : Nat → List Nat → List PublicKey × List Nat
  | 0, md => ([], md)
  | n + 1, md =>
    let k : PublicKey := ⟨md.take 32⟩
    let r := readKeys n (md.drop 32)
    (k :: r.1, r.2)

/-- Read `n` varint account indices of one instruction
(`message.go:100-107`); every parse error is checked. -/
def parseIdxList : Nat → List Nat → Except String (List Nat × List Nat)
  | 0, md => Except.ok ([], md)
  | n + 1, md =>
    match parseUvarint md with
    | Except.error e => Except.error e
    | Except.ok (i, md') =>
      match parseIdxList n md' with
      | Except.error e => Except.error e
      | Except.ok (is, md'') => Except.ok (i :: is, md'')

/-- Read `n` compiled instructions (`message.go:91-120`).  The payload
slice `messageData[:dataLen]` is taken without a bounds check: when
`dataLen` exceeds the remaining bytes the Go code panics
(`Res.panic`). -/
def parseInstrList : Nat → List Nat → Res (List CompiledInstruction × List Nat)
  | 0, md => Res.ok ([], md)
  | n + 1, md =>
    match parseUvarint md with
    | Except.error _ => Res.err "parse instruction programID error"
    | Except.ok (programID, md) =>
      match parseUvarint md with
      | Except.error _ => Res.err "parse instruction account count error"
      | Except.ok (cnt, md) =>
        match parseIdxList cnt md with
        | Except.error _ => Res.err "parse instruction account idx error"
        | Except.ok (idxs, md) =>
          match parseUvarint md with
          | Except.error _ => Res.err "parse instruction data length error"
          | Except.ok (dataLen, md) =>
            if md.length < dataLen then Res.panic
            else
              match parseInstrList n (md.drop dataLen) with
              | Res.panic => Res.panic
              | Res.err e => Res.err e
              | Res.ok (rest, md') =>
                Res.ok (⟨programID, idxs, md.take dataLen⟩ :: rest, md')

/-- Model of `types.MessageDeserialize`. -/
def MessageDeserialize (messageData : List Nat) : Res Message :=
  match parseHeaderByte messageData with
  | Res.panic => Res.panic
  | Res.err e => Res.err e
  | Res.ok (numRequireSignatures, md) =>
    match parseHeaderByte md with
    | Res.panic => Res.panic
    | Res.err e => Res.err e
    | Res.ok (numReadonlySignedAccounts, md) =>
      match parseHeaderByte md with
      | Res.panic => Res.panic
      | Res.err e => Res.err e
      | Res.ok (numReadonlyUnsignedAccounts, md) =>
        -- the parse error of the account count is ignored (`message.go:69`)
        let ac : Nat × List Nat :=
          match parseUvarint md with
          | Except.ok (c, md') => (c, md')
          | Except.error _ => (0, md)
        let accountCount := ac.1
        let md := ac.2
        if md.length < accountCount * 32 then Res.err "parse account error"
        else
          let rk := readKeys accountCount md
          let accounts := rk.1
          let md := rk.2
          if md.length < 32 then Res.err "parse blockhash error"
          else
            let blockHash := base58Encode (md.take 32)
            let md := md.drop 32
            match parseUvarint md with
            | Except.error _ => Res.err "parse instruction count error"
            | Except.ok (instructionCount, md) =>
              match parseInstrList instructionCount md with
              | Res.panic => Res.panic
              | Res.err e => Res.err e
              | Res.ok (instructions, _) =>
                Res.ok
                  { header :=
                      { numRequireSignatures := numRequireSignatures
                        numReadonlySignedAccounts := numReadonlySignedAccounts
                        numReadonlyUnsignedAccounts := numReadonlyUnsignedAccounts }
                    accounts := accounts
                    recentBlockHash := blockHash
                    instructions := instructions }

/-! ## Derived helpers used by the theorems -/

/-- Bytes of a successful serialization, `none` on error or panic. -/
def serOk : Res (List Nat) → Option (List Nat)
  | Res.ok bs => some bs
  | _ => none

/-- Message of a successful deserialization, `none` on error or panic. -/
def desOk : Res Message → Option Message
  | Res.ok m => some m
  | _ => none

/-- Serialize, then deserialize the produced bytes; a serialization
panic or error is propagated. -/
def roundTrip (m : Message) : Res Message :=
  match Message.serialize m with
  | Res.panic => Res.panic
  | Res.err e => Res.err e
  | Res.ok bs => MessageDeserialize bs

/-- Per-identity privilege mentions of `k` across an instruction
sequence: each occurrence of `k` as a program id contributes
`(false, false)`, each occurrence among an instruction's account metas
contributes that meta's `(isSigner, isWritable)`. -/
def mentionFlags (k : PublicKey) (instructions : List Instruction) : List (Bool × Bool) :=
  (instructions.map (fun ins =>
    (if ins.programID = k then [(false, false)] else []) ++
      (ins.accounts.filter (fun a => decide (a.pubKey = k))).map
        (fun a => (a.isSigner, a.isWritable)))).flatten

/-- Merged map content together with the fee-payer override: the fee
payer (when designated) is counted as writable-signed regardless of the
flags any instruction recorded for it. -/
def effectiveMetas (feePayer : PublicKey) (instructions : List Instruction) :
    List AccountMeta :=
  if feePayer = ZeroPublicKey then accountMap instructions
  else ⟨feePayer, true, true⟩ ::
    (accountMap instructions).filter (fun a => !(decide (feePayer = a.pubKey)))

/-- Concrete key with first byte `i`, used by the concrete scenarios. -/
def pkOf (i : Nat) : PublicKey := ⟨i :: List.replicate 31 0⟩

deriving instance DecidableEq for Except

/-- Canonical base58 text of the all-zero 32-byte hash. -/
def hash32 : String := "11111111111111111111111111111111"

/-- Lookup by key in the merged map content. -/
def lookupMeta (m : List AccountMeta) (k : PublicKey) : Option AccountMeta :=
  m.find? (fun a => decide (a.pubKey = k))

/-- Fold a mention list into an optional entry for key `k`: a first
mention creates the entry, later mentions OR into it. -/
def combineFlags (k : PublicKey) (o : Option AccountMeta) (fl : List (Bool × Bool)) :
    Option AccountMeta :=
  fl.foldl (fun o f =>
    match o with
    | none => some ⟨k, f.1, f.2⟩
    | some a => some ⟨a.pubKey, a.isSigner || f.1, a.isWritable || f.2⟩) o

/-- Privilege mentions of `k` inside one instruction's account list. -/
def accountMentions (k : PublicKey) (accs : List AccountMeta) : List (Bool × Bool) :=
  (accs.filter (fun a => decide (a.pubKey = k))).map (fun a => (a.isSigner, a.isWritable))

/-- One instruction's contribution to the merged map. -/
def instrStep (m : List AccountMeta) (ins : Instruction) : List AccountMeta :=
  ins.accounts.foldl addAccountMeta (addProgramID m ins.programID)

/-- Wire bytes of one compiled instruction on the success path. -/
def serInstrBytes (ci : CompiledInstruction) : List Nat :=
  [ci.programIDIndex % 256] ++ goVarint ci.accounts.length ++ ci.accounts.map (· % 256) ++
    [ci.data.length % 256] ++ ci.data

/-- Smallness conditions under which the raw-byte/varint asymmetry of
the instruction wire format is harmless. -/
def instrSmall (ci : CompiledInstruction) : Prop :=
  ci.programIDIndex < 128 ∧ (∀ i ∈ ci.accounts, i < 128) ∧ ci.data.length < 128 ∧
    ci.accounts ≠ [] ∧ ci.accounts.length < 2 ^ 70


/-! ## Concrete scenarios -/

/-- Spec §8 concrete scenario: one instruction with program `P`,
accounts `A` (signer, writable) and `B` (writable), payload `[9]`. -/
def specInstrs : List Instruction :=
  [⟨pkOf 4, [⟨pkOf 1, true, true⟩, ⟨pkOf 2, false, true⟩], [9]⟩]

/-- An iteration order of `accountMap specInstrs`. -/
def specEntries : List AccountMeta :=
  [⟨pkOf 4, false, false⟩, ⟨pkOf 1, true, true⟩, ⟨pkOf 2, false, true⟩]

/-- Spec §8 scenario compiled with fee payer `A`. -/
def specMessage : Message := NewMessage (pkOf 1) specInstrs hash32 specEntries

/-- One instruction touching two read-only unsigned accounts: their
relative order in the output is decided solely by map iteration
order. -/
def c1Instrs : List Instruction :=
  [⟨pkOf 4, [⟨pkOf 2, false, false⟩, ⟨pkOf 3, false, false⟩], [9]⟩]

/-- One possible iteration order of `accountMap c1Instrs`. -/
def c1OrderA : List AccountMeta :=
  [⟨pkOf 4, false, false⟩, ⟨pkOf 2, false, false⟩, ⟨pkOf 3, false, false⟩]

/-- Another possible iteration order of the same map. -/
def c1OrderB : List AccountMeta :=
  [⟨pkOf 4, false, false⟩, ⟨pkOf 3, false, false⟩, ⟨pkOf 2, false, false⟩]

/-- Serialized bytes of the spec §8 scenario message. -/
def specBytes : List Nat :=
  match Message.serialize specMessage with
  | Res.ok bs => bs
  | _ => []

/-- Instruction whose 128-byte zero payload makes the emitted raw
payload-length byte `0x80` read back as a two-byte varint. -/
def c3Instrs : List Instruction :=
  [⟨pkOf 4, [⟨pkOf 1, true, true⟩], List.replicate 128 0⟩]

/-- An iteration order of `accountMap c3Instrs`. -/
def c3Entries : List AccountMeta := [⟨pkOf 4, false, false⟩, ⟨pkOf 1, true, true⟩]

/-- The 128-byte-payload message compiled with fee payer `A`. -/
def c3Message : Message := NewMessage (pkOf 1) c3Instrs hash32 c3Entries

/-- One instruction naming only a program; the fee payer appears
nowhere in the instruction sequence. -/
def c6Instrs : List Instruction := [⟨pkOf 4, [], [1]⟩]

/-- The iteration order of `accountMap c6Instrs` (a single entry). -/
def c6Entries : List AccountMeta := [⟨pkOf 4, false, false⟩]

/-- Message whose block-hash text `"2"` is valid base58 but decodes to
the single byte `[1]`, not 32 bytes. -/
def c7Message : Message := ⟨⟨1, 0, 0⟩, [pkOf 5], "2", [⟨0, [0], [9]⟩]⟩

/-- Message with a 256-byte instruction payload, exceeding the
single-byte wire length field. -/
def c9Message : Message := ⟨⟨1, 0, 0⟩, [pkOf 5], hash32, [⟨0, [0], List.replicate 256 7⟩]⟩

/-- Message with empty instruction list and an undecodable block-hash
text (`'0'` is outside the base58 alphabet). -/
def c10BadHashMessage : Message := ⟨⟨0, 0, 0⟩, [pkOf 5], "0", []⟩

/-- Message with an empty account list. -/
def c10EmptyAccounts : Message := ⟨⟨0, 0, 0⟩, [], "", []⟩

/-! ## Varint lemmas -/

theorem parseUvarintAux_succ (f b : Nat) (rest : List Nat) (shift acc : Nat) :
    parseUvarintAux (f + 1) (b :: rest) shift acc =
      if b < 128 then Except.ok (acc + b * 2 ^ shift, rest)
      else parseUvarintAux f rest (shift + 7) (acc + b % 128 * 2 ^ shift) := rfl

theorem putUvarintLoop_succ (f n : Nat) :
    putUvarintLoop (f + 1) n =
      if n < 128 then [n] else (n % 128 + 128) :: putUvarintLoop f (n / 128) := rfl

/-- Parsing the bytes written by `binary.PutUvarint` (with any suffix)
recovers the value and leaves the suffix, provided the value fits the
shared fuel. -/
theorem parseUvarintAux_putUvarintLoop (f : Nat) :
    ∀ n shift acc rest, n < 2 ^ (7 * (f + 1)) →
      parseUvarintAux (f + 1) (putUvarintLoop (f + 1) n ++ rest) shift acc =
        Except.ok (acc + n * 2 ^ shift, rest) := by
  induction f with
  | zero =>
    intro n shift acc rest hn
    have h : n < 128 := by norm_num at hn; omega
    rw [putUvarintLoop_succ]
    simp [h, parseUvarintAux_succ]
  | succ f ih =>
    intro n shift acc rest hn
    rw [putUvarintLoop_succ]
    by_cases h : n < 128
    · simp [h, parseUvarintAux_succ]
    · simp only [h, if_false, List.cons_append, parseUvarintAux_succ]
      have hb : ¬ (n % 128 + 128 < 128) := by omega
      rw [if_neg hb]
      have hmod : (n % 128 + 128) % 128 = n % 128 := by omega
      have hdiv : n / 128 < 2 ^ (7 * (f + 1)) := by
        have h128 : (128 : Nat) = 2 ^ 7 := by norm_num
        rw [Nat.div_lt_iff_lt_mul (by norm_num : (0:Nat) < 128), h128, ← pow_add]
        have : 7 * (f + 1) + 7 = 7 * (f + 1 + 1) := by ring
        rw [this]; exact hn
      rw [hmod, ih (n / 128) (shift + 7) _ rest hdiv]
      congr 2
      have hsplit : n % 128 + 128 * (n / 128) = n := Nat.mod_add_div n 128
      have hpow : (2:Nat) ^ (shift + 7) = 2 ^ shift * 128 := by rw [pow_add]; norm_num
      rw [hpow]
      calc acc + n % 128 * 2 ^ shift + n / 128 * (2 ^ shift * 128)
          = acc + (n % 128 + 128 * (n / 128)) * 2 ^ shift := by ring
        _ = acc + n * 2 ^ shift := by rw [hsplit]

/-- Round trip of the varint codec on the byte level. -/
theorem parseUvarint_goVarint (n : Nat) (rest : List Nat) (hn : n < 2 ^ 70) :
    parseUvarint (goVarint n ++ rest) = Except.ok (n, rest) := by
  have h := parseUvarintAux_putUvarintLoop 9 n 0 0 rest (by norm_num at hn ⊢; omega)
  simpa [parseUvarint, goVarint] using h

/-- A single byte below 128 is a complete varint for its own value. -/
theorem parseUvarint_byte (b : Nat) (rest : List Nat) (hb : b < 128) :
    parseUvarint (b :: rest) = Except.ok (b, rest) := by
  show parseUvarintAux (9 + 1) (b :: rest) 0 0 = _
  rw [parseUvarintAux_succ, if_pos hb]
  simp

/-- The bytes written for a positive value end in a nonzero byte (the
most significant base-128 digit, or a continuation byte). -/
theorem putUvarintLoop_reverse_head (f : Nat) :
    ∀ n, 0 < n → ∃ x t, (putUvarintLoop (f + 1) n).reverse = x :: t ∧ x ≠ 0 := by
  induction f with
  | zero =>
    intro n hn
    rw [putUvarintLoop_succ]
    by_cases h : n < 128
    · exact ⟨n, [], by simp [h], by omega⟩
    · refine ⟨n % 128 + 128, [], ?_, by omega⟩
      simp [h, putUvarintLoop]
  | succ f ih =>
    intro n hn
    rw [putUvarintLoop_succ]
    by_cases h : n < 128
    · exact ⟨n, [], by simp [h], by omega⟩
    · obtain ⟨x, t, hrev, hx⟩ := ih (n / 128) (Nat.div_pos (by omega) (by norm_num))
      refine ⟨x, t ++ [n % 128 + 128], ?_, hx⟩
      rw [if_neg h, List.reverse_cons, hrev]
      rfl

/-- Dropping leading zeros skips over a zero-filled block. -/
theorem dropWhile_zero_replicate (k : Nat) (l : List Nat) :
    (List.replicate k 0 ++ l).dropWhile (fun x => decide (x = 0)) =
      l.dropWhile (fun x => decide (x = 0)) := by
  induction k with
  | zero => rfl
  | succ k ih => simp [List.replicate_succ, List.dropWhile, ih]

/-- Trimming trailing zeros from a buffer that ends with a nonzero-final
payload followed by zero padding recovers exactly the payload. -/
theorem trimTrailingZeroByte_append_replicate (v : List Nat) (k x : Nat) (t : List Nat)
    (hrev : v.reverse = x :: t) (hx : x ≠ 0) :
    trimTrailingZeroByte (v ++ List.replicate k 0) = some v := by
  unfold trimTrailingZeroByte
  rw [List.reverse_append, List.reverse_replicate, dropWhile_zero_replicate, hrev]
  rw [List.dropWhile_cons_of_neg (by simpa using hx)]
  have hv : (x :: t).reverse = v := by rw [← hrev, List.reverse_reverse]
  simp [hv]

/-- `UintToVarLenBytes` on a positive value returns exactly the bytes
`binary.PutUvarint` wrote: trimming removes only the zero padding. -/
theorem UintToVarLenBytes_pos (n : Nat) (hn : n ≠ 0) :
    UintToVarLenBytes n = some (goVarint n) := by
  obtain ⟨x, t, hrev, hx⟩ := putUvarintLoop_reverse_head 9 n (Nat.pos_of_ne_zero hn)
  exact trimTrailingZeroByte_append_replicate (goVarint n) _ x t hrev hx

/-- `UintToVarLenBytes 0` strips the whole all-zero buffer and then
indexes an empty slice: panic. -/
theorem UintToVarLenBytes_zero : UintToVarLenBytes 0 = none := by decide

/-! ## Merge characterization -/

theorem accountMap_eq_foldl (instructions : List Instruction) :
    accountMap instructions = instructions.foldl instrStep [] := rfl

theorem combineFlags_append (k : PublicKey) (o : Option AccountMeta)
    (l₁ l₂ : List (Bool × Bool)) :
    combineFlags k (combineFlags k o l₁) l₂ = combineFlags k o (l₁ ++ l₂) :=
  (List.foldl_append _ _ _ _).symm

theorem addAccountMeta_cons (b : AccountMeta) (rest : List AccountMeta) (a : AccountMeta) :
    addAccountMeta (b :: rest) a =
      if b.pubKey = a.pubKey then
        ⟨b.pubKey, b.isSigner || a.isSigner, b.isWritable || a.isWritable⟩ :: rest
      else b :: addAccountMeta rest a := rfl

theorem lookupMeta_addAccountMeta (m : List AccountMeta) (a : AccountMeta) (k : PublicKey) :
    lookupMeta (addAccountMeta m a) k =
      if a.pubKey = k then combineFlags k (lookupMeta m k) [(a.isSigner, a.isWritable)]
      else lookupMeta m k := by
  induction m with
  | nil =>
    by_cases hak : a.pubKey = k
    · rw [if_pos hak]
      show List.find? _ [a] = _
      simp [lookupMeta, combineFlags, List.find?_cons, hak]
      cases a with
      | mk p s w => simp at hak; simp [hak]
    · rw [if_neg hak]
      show List.find? _ [a] = _
      simp [lookupMeta, List.find?_cons, hak]
  | cons b rest ih =>
    rw [addAccountMeta_cons]
    by_cases hba : b.pubKey = a.pubKey
    · rw [if_pos hba]
      by_cases hak : a.pubKey = k
      · have hbk : b.pubKey = k := by rw [hba, hak]
        rw [if_pos hak]
        unfold lookupMeta
        rw [List.find?_cons_of_pos _ (by simpa using hbk),
          List.find?_cons_of_pos _ (by simpa using hbk)]
        simp [combineFlags]
      · have hbk : ¬ b.pubKey = k := by rw [hba]; exact hak
        rw [if_neg hak]
        unfold lookupMeta
        rw [List.find?_cons_of_neg _ (by simpa using hbk),
          List.find?_cons_of_neg _ (by simpa using hbk)]
    · rw [if_neg hba]
      by_cases hbk : b.pubKey = k
      · have hak : ¬ a.pubKey = k := fun h => hba (hbk.trans h.symm)
        rw [if_neg hak]
        unfold lookupMeta
        rw [List.find?_cons_of_pos _ (by simpa using hbk),
          List.find?_cons_of_pos _ (by simpa using hbk)]
      · unfold lookupMeta
        rw [List.find?_cons_of_neg _ (by simpa using hbk),
          List.find?_cons_of_neg _ (by simpa using hbk)]
        exact ih

theorem lookupMeta_addProgramID (m : List AccountMeta) (pid k : PublicKey) :
    lookupMeta (addProgramID m pid) k =
      if pid = k then combineFlags k (lookupMeta m k) [(false, false)]
      else lookupMeta m k := by
  unfold addProgramID
  by_cases hany : m.any (fun b => decide (b.pubKey = pid))
  · rw [if_pos hany]
    by_cases hpk : pid = k
    · subst hpk
      obtain ⟨a, ha, hpa⟩ := List.any_eq_true.mp hany
      have : ∃ b ∈ m, decide (b.pubKey = pid) = true := ⟨a, ha, hpa⟩
      obtain ⟨b, hb⟩ := Option.isSome_iff_exists.mp (List.find?_isSome.mpr this)
      unfold lookupMeta
      rw [hb]
      simp [combineFlags]
    · rw [if_neg hpk]
  · rw [if_neg hany]
    have hnone : m.find? (fun a => decide (a.pubKey = pid)) = none := by
      rw [List.find?_eq_none]
      intro x hx
      simp only [List.any_eq_true, not_exists, not_and] at hany
      simp [hany x hx]
    by_cases hpk : pid = k
    · subst hpk
      unfold lookupMeta
      rw [List.find?_append, hnone]
      simp [combineFlags, List.find?_cons]
    · unfold lookupMeta
      rw [List.find?_append, if_neg hpk]
      cases hfind : m.find? (fun a => decide (a.pubKey = k)) with
      | some a => simp
      | none => simp [List.find?_cons, hpk]

theorem lookupMeta_foldl_accounts (k : PublicKey) (accs : List AccountMeta) :
    ∀ m, lookupMeta (accs.foldl addAccountMeta m) k =
      combineFlags k (lookupMeta m k) (accountMentions k accs) := by
  induction accs with
  | nil => intro m; rfl
  | cons a accs ih =>
    intro m
    rw [List.foldl_cons, ih, lookupMeta_addAccountMeta]
    by_cases hak : a.pubKey = k
    · rw [if_pos hak, combineFlags_append]
      congr 1
      simp [accountMentions, List.filter_cons, hak]
    · rw [if_neg hak]
      congr 1
      simp [accountMentions, List.filter_cons, hak]

theorem lookupMeta_foldl_instrs (k : PublicKey) (instructions : List Instruction) :
    ∀ m, lookupMeta (instructions.foldl instrStep m) k =
      combineFlags k (lookupMeta m k) (mentionFlags k instructions) := by
  induction instructions with
  | nil => intro m; rfl
  | cons ins rest ih =>
    intro m
    rw [List.foldl_cons, ih]
    show _ = combineFlags k (lookupMeta m k) (mentionFlags k (ins :: rest))
    have hsplit : mentionFlags k (ins :: rest) =
        ((if ins.programID = k then [(false, false)] else []) ++
          accountMentions k ins.accounts) ++ mentionFlags k rest := by
      simp [mentionFlags, accountMentions, List.append_assoc]
    rw [hsplit, ← combineFlags_append]
    congr 1
    unfold instrStep
    rw [lookupMeta_foldl_accounts, lookupMeta_addProgramID]
    by_cases hpk : ins.programID = k
    · rw [if_pos hpk, if_pos hpk, combineFlags_append]
    · rw [if_neg hpk, if_neg hpk, List.nil_append]

theorem combineFlags_some (k p : PublicKey) (s w : Bool) (fl : List (Bool × Bool)) :
    combineFlags k (some ⟨p, s, w⟩) fl =
      some ⟨p, s || fl.any (·.1), w || fl.any (·.2)⟩ := by
  induction fl generalizing s w with
  | nil => simp [combineFlags]
  | cons f fl ih =>
    show combineFlags k (some ⟨p, s || f.1, w || f.2⟩) fl = _
    rw [ih]
    simp [List.any_cons, Bool.or_assoc]

theorem combineFlags_none (k : PublicKey) (fl : List (Bool × Bool)) :
    combineFlags k none fl =
      if fl.isEmpty then none
      else some ⟨k, fl.any (·.1), fl.any (·.2)⟩ := by
  cases fl with
  | nil => rfl
  | cons f fl =>
    show combineFlags k (some ⟨k, f.1, f.2⟩) fl = _
    rw [combineFlags_some]
    simp [List.any_cons]

/-- Main merge characterization: the entry the merged map holds for `k`
is exactly the OR of all privilege mentions of `k`, and it exists iff
`k` is mentioned at all. -/
theorem lookupMeta_accountMap (instructions : List Instruction) (k : PublicKey) :
    lookupMeta (accountMap instructions) k =
      if (mentionFlags k instructions).isEmpty then none
      else some ⟨k, (mentionFlags k instructions).any (·.1),
        (mentionFlags k instructions).any (·.2)⟩ := by
  rw [accountMap_eq_foldl, lookupMeta_foldl_instrs]
  exact combineFlags_none k _

/-- A mentioned key has an entry in the merged map. -/
theorem mem_accountMap_of_mention (instructions : List Instruction) (k : PublicKey)
    (h : mentionFlags k instructions ≠ []) :
    ∃ a ∈ accountMap instructions, a.pubKey = k := by
  have hfind := lookupMeta_accountMap instructions k
  rw [if_neg (by simpa [List.isEmpty_iff] using h)] at hfind
  exact ⟨_, List.mem_of_find?_eq_some hfind, rfl⟩

/-! ## Classification lemmas -/

theorem classifyAll_foldl (l : List AccountMeta) :
    ∀ ws ros wu ru : List PublicKey,
      l.foldl classifyStep (ws, ros, wu, ru) =
        (ws ++ (l.filter (fun a => a.isSigner && a.isWritable)).map (·.pubKey),
         ros ++ (l.filter (fun a => a.isSigner && !a.isWritable)).map (·.pubKey),
         wu ++ (l.filter (fun a => !a.isSigner && a.isWritable)).map (·.pubKey),
         ru ++ (l.filter (fun a => !a.isSigner && !a.isWritable)).map (·.pubKey)) := by
  induction l with
  | nil => intro ws ros wu ru; simp
  | cons a l ih =>
    intro ws ros wu ru
    rw [List.foldl_cons]
    obtain ⟨pk, s, w⟩ := a
    cases s <;> cases w <;>
      simp [classifyStep, ih, List.filter_cons, List.append_assoc]

/-- The four buckets are the four flag-filters of the iterated entries,
in iteration order. -/
theorem classifyAll_eq (l : List AccountMeta) :
    classifyAll l =
      ((l.filter (fun a => a.isSigner && a.isWritable)).map (·.pubKey),
       (l.filter (fun a => a.isSigner && !a.isWritable)).map (·.pubKey),
       (l.filter (fun a => !a.isSigner && a.isWritable)).map (·.pubKey),
       (l.filter (fun a => !a.isSigner && !a.isWritable)).map (·.pubKey)) := by
  simpa using classifyAll_foldl l [] [] [] []

/-- Every iterated entry lands in one of the four buckets. -/
theorem mem_buckets_of_mem (l : List AccountMeta) (a : AccountMeta) (ha : a ∈ l) :
    a.pubKey ∈ (classifyAll l).1 ∨ a.pubKey ∈ (classifyAll l).2.1 ∨
      a.pubKey ∈ (classifyAll l).2.2.1 ∨ a.pubKey ∈ (classifyAll l).2.2.2 := by
  rw [classifyAll_eq]
  cases hs : a.isSigner <;> cases hw : a.isWritable
  · right; right; right
    exact List.mem_map_of_mem _ (List.mem_filter.mpr ⟨ha, by simp [hs, hw]⟩)
  · right; right; left
    exact List.mem_map_of_mem _ (List.mem_filter.mpr ⟨ha, by simp [hs, hw]⟩)
  · right; left
    exact List.mem_map_of_mem _ (List.mem_filter.mpr ⟨ha, by simp [hs, hw]⟩)
  · left
    exact List.mem_map_of_mem _ (List.mem_filter.mpr ⟨ha, by simp [hs, hw]⟩)

/-! ## Index-map lemmas -/

theorem idxMapInsert_cons (k' : PublicKey) (v' : Nat) (rest : List (PublicKey × Nat))
    (k : PublicKey) (v : Nat) :
    idxMapInsert ((k', v') :: rest) k v =
      if k' = k then (k, v) :: rest else (k', v') :: idxMapInsert rest k v := rfl

theorem mem_idxMapInsert (m : List (PublicKey × Nat)) (k : PublicKey) (v : Nat)
    (p : PublicKey × Nat) (hp : p ∈ idxMapInsert m k v) : p = (k, v) ∨ p ∈ m := by
  induction m with
  | nil => simpa [idxMapInsert] using hp
  | cons q m ih =>
    obtain ⟨k', v'⟩ := q
    by_cases hq : k' = k
    · rw [idxMapInsert_cons, if_pos hq] at hp
      rcases List.mem_cons.mp hp with h | h
      · exact Or.inl h
      · exact Or.inr (List.mem_cons_of_mem _ h)
    · rw [idxMapInsert_cons, if_neg hq] at hp
      rcases List.mem_cons.mp hp with h | h
      · exact Or.inr (h ▸ List.mem_cons_self _ _)
      · rcases ih h with h' | h'
        · exact Or.inl h'
        · exact Or.inr (List.mem_cons_of_mem _ h')

theorem key_mem_idxMapInsert (m : List (PublicKey × Nat)) (k : PublicKey) (v : Nat) :
    ∃ q ∈ idxMapInsert m k v, q.1 = k := by
  induction m with
  | nil => exact ⟨(k, v), by simp [idxMapInsert]⟩
  | cons p m ih =>
    obtain ⟨k', v'⟩ := p
    by_cases hp : k' = k
    · exact ⟨(k, v), by rw [idxMapInsert_cons, if_pos hp]; exact List.mem_cons_self _ _, rfl⟩
    · obtain ⟨q, hq, hqk⟩ := ih
      exact ⟨q, by rw [idxMapInsert_cons, if_neg hp]; exact List.mem_cons_of_mem _ hq, hqk⟩

theorem key_persists_idxMapInsert (m : List (PublicKey × Nat)) (k : PublicKey) (v : Nat)
    (k' : PublicKey) (h : ∃ q ∈ m, q.1 = k') :
    ∃ q ∈ idxMapInsert m k v, q.1 = k' := by
  by_cases hk : k' = k
  · exact hk ▸ key_mem_idxMapInsert m k v
  · induction m with
    | nil => simp at h
    | cons p m ih =>
      obtain ⟨k₀, v₀⟩ := p
      obtain ⟨q, hq, hqk⟩ := h
      by_cases hp : k₀ = k
      · rw [idxMapInsert_cons, if_pos hp]
        rcases List.mem_cons.mp hq with h' | h'
        · exfalso
          apply hk
          rw [← hqk, h']
          exact hp
        · exact ⟨q, List.mem_cons_of_mem _ h', hqk⟩
      · rw [idxMapInsert_cons, if_neg hp]
        rcases List.mem_cons.mp hq with h' | h'
        · exact ⟨(k₀, v₀), List.mem_cons_self _ _, by rw [← h']; exact hqk⟩
        · obtain ⟨q', hq', hq'k⟩ := ih ⟨q, h', hqk⟩
          exact ⟨q', List.mem_cons_of_mem _ hq', hq'k⟩

theorem key_mem_foldl_idxMapInsert (l : List (Nat × PublicKey)) :
    ∀ (m : List (PublicKey × Nat)) (k : PublicKey),
      ((∃ p ∈ l, p.2 = k) ∨ ∃ q ∈ m, q.1 = k) →
      ∃ q ∈ l.foldl (fun m p => idxMapInsert m p.2 p.1) m, q.1 = k := by
  induction l with
  | nil =>
    intro m k h
    rcases h with ⟨p, hp, _⟩ | h
    · simp at hp
    · exact h
  | cons p l ih =>
    intro m k h
    rw [List.foldl_cons]
    rcases h with ⟨p', hp', hk⟩ | h
    · rcases List.mem_cons.mp hp' with h' | h'
      · exact ih _ k (Or.inr (by rw [h'] at hk; exact hk ▸ key_mem_idxMapInsert m p.2 p.1))
      · exact ih _ k (Or.inl ⟨p', h', hk⟩)
    · exact ih _ k (Or.inr (key_persists_idxMapInsert m p.2 p.1 k h))

theorem values_lt_foldl_idxMapInsert (l : List (Nat × PublicKey)) (B : Nat) :
    ∀ m : List (PublicKey × Nat), (∀ q ∈ m, q.2 < B) → (∀ p ∈ l, p.1 < B) →
      ∀ q ∈ l.foldl (fun m p => idxMapInsert m p.2 p.1) m, q.2 < B := by
  induction l with
  | nil => intro m hm _ q hq; exact hm q hq
  | cons p l ih =>
    intro m hm hl q hq
    rw [List.foldl_cons] at hq
    refine ih _ ?_ (fun p' hp' => hl p' (List.mem_cons_of_mem _ hp')) q hq
    intro q' hq'
    rcases mem_idxMapInsert m p.2 p.1 q' hq' with h | h
    · rw [h]; exact hl p (List.mem_cons_self _ _)
    · exact hm q' h

/-- A key present in the final account list resolves through
`publicKeyToIdx` to an index strictly below the list length. -/
theorem lookupPkIdx_lt (pks : List PublicKey) (k : PublicKey) (hk : k ∈ pks) :
    lookupPkIdx (publicKeyToIdx pks) k < pks.length := by
  have henum : ∃ p ∈ pks.enum, p.2 = k := by
    have : k ∈ pks.enum.map Prod.snd := by rw [List.enum_map_snd]; exact hk
    obtain ⟨p, hp, hpk⟩ := List.mem_map.mp this
    exact ⟨p, hp, hpk⟩
  have hpresent := key_mem_foldl_idxMapInsert pks.enum [] k (Or.inl henum)
  obtain ⟨q, hq, hqk⟩ := hpresent
  have hfind : (List.find? (fun p => decide (p.1 = k)) (publicKeyToIdx pks)).isSome := by
    rw [List.find?_isSome]
    exact ⟨q, hq, by simp [hqk]⟩
  obtain ⟨q0, hq0⟩ := Option.isSome_iff_exists.mp hfind
  have hq0mem := List.mem_of_find?_eq_some hq0
  have hbound := values_lt_foldl_idxMapInsert pks.enum pks.length []
    (by intro q' hq'; simp at hq')
    (fun p hp => List.fst_lt_of_mem_enum hp) q0 hq0mem
  unfold lookupPkIdx
  rw [hq0]
  exact hbound

/-! ## Membership in the canonical account list -/

/-- Every iterated map entry's key ends up in the canonical account
list. -/
theorem pubKey_mem_nmPublicKeys (feePayer : PublicKey) (entries : List AccountMeta)
    (a : AccountMeta) (ha : a ∈ entries) : a.pubKey ∈ nmPublicKeys feePayer entries := by
  by_cases hfp : feePayer = ZeroPublicKey
  · have hmem := mem_buckets_of_mem (nmToClassify feePayer entries) a
      (by rw [nmToClassify, if_pos hfp]; exact ha)
    unfold nmPublicKeys nmWS nmROS nmWU nmRU
    rw [if_pos hfp]
    rcases hmem with h | h | h | h <;> simp [List.mem_append, h]
  · by_cases hak : feePayer = a.pubKey
    · unfold nmPublicKeys nmWS
      rw [if_neg hfp, ← hak]
      simp
    · have hfilter : a ∈ nmToClassify feePayer entries := by
        rw [nmToClassify, if_neg hfp]
        exact List.mem_filter.mpr ⟨ha, by simp [hak]⟩
      have hmem := mem_buckets_of_mem (nmToClassify feePayer entries) a hfilter
      unfold nmPublicKeys nmWS nmROS nmWU nmRU
      rw [if_neg hfp]
      rcases hmem with h | h | h | h <;> simp [List.mem_append, h]

/-- A program id of some instruction is mentioned. -/
theorem mention_ne_nil_of_programID (instructions : List Instruction) (ins : Instruction)
    (hins : ins ∈ instructions) : mentionFlags ins.programID instructions ≠ [] := by
  intro hnil
  unfold mentionFlags at hnil
  rw [List.flatten_eq_nil_iff] at hnil
  have := hnil _ (List.mem_map_of_mem _ hins)
  rw [if_pos rfl] at this
  simp at this

/-- A key in some instruction's account list is mentioned. -/
theorem mention_ne_nil_of_accountMeta (instructions : List Instruction) (ins : Instruction)
    (hins : ins ∈ instructions) (am : AccountMeta) (ham : am ∈ ins.accounts) :
    mentionFlags am.pubKey instructions ≠ [] := by
  intro hnil
  unfold mentionFlags at hnil
  rw [List.flatten_eq_nil_iff] at hnil
  have := hnil _ (List.mem_map_of_mem _ hins)
  have hfilter : am ∈ ins.accounts.filter (fun a => decide (a.pubKey = am.pubKey)) :=
    List.mem_filter.mpr ⟨ham, by simp⟩
  rcases List.append_eq_nil.mp this with ⟨_, h2⟩
  rw [List.map_eq_nil_iff] at h2
  rw [h2] at hfilter
  simp at hfilter

/-- Every mentioned key of the instruction sequence appears in the
canonical account list (provided the iteration order covers the map
content). -/
theorem mentioned_mem_nmPublicKeys (feePayer : PublicKey) (instructions : List Instruction)
    (entries : List AccountMeta) (hperm : entries.Perm (accountMap instructions))
    (k : PublicKey) (hk : mentionFlags k instructions ≠ []) :
    k ∈ nmPublicKeys feePayer entries := by
  obtain ⟨a, hmem, hak⟩ := mem_accountMap_of_mention instructions k hk
  have ha : a ∈ entries := hperm.mem_iff.mpr hmem
  exact hak ▸ pubKey_mem_nmPublicKeys feePayer entries a ha

/-- Index-bound invariant: every compiled index resolves inside the
canonical account list. -/
theorem nm_indices_lt (feePayer : PublicKey) (instructions : List Instruction)
    (recentBlockHash : String) (entries : List AccountMeta)
    (hperm : entries.Perm (accountMap instructions)) :
    ∀ ci ∈ (NewMessage feePayer instructions recentBlockHash entries).instructions,
      ci.programIDIndex < (nmPublicKeys feePayer entries).length ∧
        ∀ i ∈ ci.accounts, i < (nmPublicKeys feePayer entries).length := by
  intro ci hci
  obtain ⟨ins, hins, rfl⟩ := List.mem_map.mp hci
  constructor
  · exact lookupPkIdx_lt _ _ (mentioned_mem_nmPublicKeys feePayer instructions entries hperm
      ins.programID (mention_ne_nil_of_programID instructions ins hins))
  · intro i hi
    obtain ⟨am, ham, rfl⟩ := List.mem_map.mp hi
    exact lookupPkIdx_lt _ _ (mentioned_mem_nmPublicKeys feePayer instructions entries hperm
      am.pubKey (mention_ne_nil_of_accountMeta instructions ins hins am ham))

/-! ## Counting lemmas for the header fields -/

theorem length_filter_eq_countP {α : Type} (p : α → Bool) (l : List α) :
    (l.filter p).length = l.countP p := by
  induction l with
  | nil => rfl
  | cons a t ih =>
    rw [List.filter_cons, List.countP_cons]
    cases h : p a <;> simp [h, ih]

theorem countP_and_split {α : Type} (p q : α → Bool) (l : List α) :
    l.countP (fun a => p a && q a) + l.countP (fun a => p a && !q a) = l.countP p := by
  induction l with
  | nil => rfl
  | cons a t ih =>
    simp only [List.countP_cons]
    cases hp : p a <;> cases hq : q a <;> simp [hp, hq] <;> omega

theorem countP_add_countP_not {α : Type} (p : α → Bool) (l : List α) :
    l.countP p + l.countP (fun a => !p a) = l.length := by
  induction l with
  | nil => rfl
  | cons a t ih =>
    simp only [List.countP_cons, List.length_cons]
    cases hp : p a <;> simp [hp] <;> omega

/-- Bucket sizes in terms of flag counts over the classified entries. -/
theorem nm_bucket_lengths (feePayer : PublicKey) (entries : List AccountMeta) :
    (nmROS feePayer entries).length =
        (nmToClassify feePayer entries).countP (fun a => a.isSigner && !a.isWritable) ∧
      (nmWU feePayer entries).length =
        (nmToClassify feePayer entries).countP (fun a => !a.isSigner && a.isWritable) ∧
      (nmRU feePayer entries).length =
        (nmToClassify feePayer entries).countP (fun a => !a.isSigner && !a.isWritable) ∧
      (nmWS feePayer entries).length =
        (if feePayer = ZeroPublicKey then 0 else 1) +
          (nmToClassify feePayer entries).countP (fun a => a.isSigner && a.isWritable) := by
  refine ⟨?_, ?_, ?_, ?_⟩
  · rw [nmROS, classifyAll_eq]
    simp [length_filter_eq_countP]
  · rw [nmWU, classifyAll_eq]
    simp [length_filter_eq_countP]
  · rw [nmRU, classifyAll_eq]
    simp [length_filter_eq_countP]
  · by_cases hfp : feePayer = ZeroPublicKey
    · rw [nmWS, if_pos hfp, if_pos hfp, classifyAll_eq]
      simp [length_filter_eq_countP]
    · rw [nmWS, if_neg hfp, if_neg hfp, classifyAll_eq]
      simp [length_filter_eq_countP]
      omega

/-! ## Round-trip component lemmas -/

/-- A header byte below 128 parses back to itself. -/
theorem parseHeaderByte_byte (h : Nat) (rest : List Nat) (hh : h < 128) :
    parseHeaderByte (h :: rest) = Res.ok (h, rest) := by
  unfold parseHeaderByte
  rw [parseUvarint_byte h rest hh]
  simp
  omega

/-- Byte length of the serialized key block. -/
theorem flatten_keys_length (ks : List PublicKey)
    (hwf : ∀ k ∈ ks, k.bytes.length = 32) :
    ((ks.map PublicKey.bytes).flatten).length = 32 * ks.length := by
  induction ks with
  | nil => rfl
  | cons k ks ih =>
    simp only [List.map_cons, List.flatten_cons, List.length_append, List.length_cons]
    rw [hwf k (List.mem_cons_self _ _), ih (fun k' hk' => hwf k' (List.mem_cons_of_mem _ hk'))]
    ring

/-- Reading back the key block reproduces the keys and leaves the
suffix. -/
theorem readKeys_append (ks : List PublicKey) (rest : List Nat)
    (hwf : ∀ k ∈ ks, k.bytes.length = 32) :
    readKeys ks.length ((ks.map PublicKey.bytes).flatten ++ rest) = (ks, rest) := by
  induction ks with
  | nil => rfl
  | cons k ks ih =>
    have h32 := hwf k (List.mem_cons_self _ _)
    show readKeys (ks.length + 1) _ = _
    simp only [List.map_cons, List.flatten_cons, List.append_assoc]
    show ((⟨(k.bytes ++ ((ks.map PublicKey.bytes).flatten ++ rest)).take 32⟩ : PublicKey) ::
      (readKeys ks.length ((k.bytes ++ ((ks.map PublicKey.bytes).flatten ++ rest)).drop 32)).1,
      (readKeys ks.length ((k.bytes ++ ((ks.map PublicKey.bytes).flatten ++ rest)).drop 32)).2) = _
    rw [← h32, List.take_left, List.drop_left,
      ih (fun k' hk' => hwf k' (List.mem_cons_of_mem _ hk'))]

/-- Index bytes below 128 parse back to the index list. -/
theorem parseIdxList_roundtrip (idxs : List Nat) (rest : List Nat)
    (h : ∀ i ∈ idxs, i < 128) :
    parseIdxList idxs.length ((idxs.map (· % 256)) ++ rest) = Except.ok (idxs, rest) := by
  induction idxs with
  | nil => rfl
  | cons i idxs ih =>
    have hi := h i (List.mem_cons_self _ _)
    have hmod : i % 256 = i := Nat.mod_eq_of_lt (by omega)
    have ih' := ih (fun j hj => h j (List.mem_cons_of_mem _ hj))
    show parseIdxList (idxs.length + 1) ((i % 256) :: ((idxs.map (· % 256)) ++ rest)) = _
    rw [hmod]
    simp only [parseIdxList, parseUvarint_byte i _ hi, ih']

theorem serializeCompiled_eq (ci : CompiledInstruction) (h : ci.accounts ≠ []) :
    serializeCompiled ci = some (serInstrBytes ci) := by
  unfold serializeCompiled
  rw [UintToVarLenBytes_pos _ (by simpa using h)]
  rfl

theorem serializeInstrList_eq (cis : List CompiledInstruction)
    (h : ∀ ci ∈ cis, ci.accounts ≠ []) :
    serializeInstrList cis = some ((cis.map serInstrBytes).flatten) := by
  induction cis with
  | nil => rfl
  | cons ci cis ih =>
    show (match serializeCompiled ci with
      | none => none
      | some bs => (serializeInstrList cis).map (bs ++ ·)) = _
    rw [serializeCompiled_eq ci (h ci (List.mem_cons_self _ _)),
      ih (fun c hc => h c (List.mem_cons_of_mem _ hc))]
    rfl

/-- Parsing back the instruction section reproduces the compiled
instructions and leaves the suffix untouched. -/
theorem parseInstrList_roundtrip (cis : List CompiledInstruction) (rest : List Nat)
    (h : ∀ ci ∈ cis, instrSmall ci) :
    parseInstrList cis.length ((cis.map serInstrBytes).flatten ++ rest) =
      Res.ok (cis, rest) := by
  induction cis with
  | nil => rfl
  | cons ci cis ih =>
    obtain ⟨hpidx, hidx, hdlen, hane, halen⟩ := h ci (List.mem_cons_self _ _)
    have hpmod : ci.programIDIndex % 256 = ci.programIDIndex := Nat.mod_eq_of_lt (by omega)
    have hdmod : ci.data.length % 256 = ci.data.length := Nat.mod_eq_of_lt (by omega)
    have ih' := ih (fun c hc => h c (List.mem_cons_of_mem _ hc))
    have hnolt : ¬ ((ci.data ++ ((cis.map serInstrBytes).flatten ++ rest)).length <
        ci.data.length) := by simp
    have hbytes : (((ci :: cis).map serInstrBytes).flatten ++ rest) =
        ci.programIDIndex :: (goVarint ci.accounts.length ++
          ((ci.accounts.map (· % 256)) ++ (ci.data.length :: (ci.data ++
            ((cis.map serInstrBytes).flatten ++ rest))))) := by
      simp [serInstrBytes, List.append_assoc, hpmod, hdmod]
    show parseInstrList (cis.length + 1) (((ci :: cis).map serInstrBytes).flatten ++ rest) = _
    rw [hbytes]
    simp only [parseInstrList, parseUvarint_byte _ _ hpidx,
      parseUvarint_goVarint ci.accounts.length _ halen,
      parseIdxList_roundtrip ci.accounts _ hidx,
      parseUvarint_byte _ _ hdlen, if_neg hnolt,
      List.drop_left, List.take_left, ih']

/-- Successful serialization: explicit wire bytes of a message whose
lists are nonempty and whose hash text decodes. -/
theorem serialize_eq (m : Message) (hb : List Nat)
    (hacc : m.accounts ≠ [])
    (hins : m.instructions ≠ [])
    (haccs : ∀ ci ∈ m.instructions, ci.accounts ≠ [])
    (hdec : base58Decode m.recentBlockHash = Except.ok hb) :
    Message.serialize m = Res.ok
      ([m.header.numRequireSignatures % 256, m.header.numReadonlySignedAccounts % 256,
          m.header.numReadonlyUnsignedAccounts % 256] ++
        goVarint m.accounts.length ++ (m.accounts.map PublicKey.bytes).flatten ++ hb ++
        goVarint m.instructions.length ++ (m.instructions.map serInstrBytes).flatten) := by
  unfold Message.serialize
  simp only [UintToVarLenBytes_pos m.accounts.length (by simpa using hacc),
    UintToVarLenBytes_pos m.instructions.length (by simpa using hins),
    hdec, serializeInstrList_eq m.instructions haccs]

/-- Successful deserialization of a well-shaped wire image: the strict
inverse of `serialize_eq` under the smallness conditions. -/
theorem deserialize_eq (hdr1 hdr2 hdr3 : Nat) (ks : List PublicKey) (hb : List Nat)
    (cis : List CompiledInstruction)
    (h1 : hdr1 < 128) (h2 : hdr2 < 128) (h3 : hdr3 < 128)
    (hkwf : ∀ k ∈ ks, k.bytes.length = 32)
    (hklen : ks.length < 2 ^ 70)
    (hhb : hb.length = 32)
    (hilen : cis.length < 2 ^ 70)
    (hsmall : ∀ ci ∈ cis, instrSmall ci) :
    MessageDeserialize ([hdr1, hdr2, hdr3] ++ goVarint ks.length ++
        (ks.map PublicKey.bytes).flatten ++ hb ++ goVarint cis.length ++
        (cis.map serInstrBytes).flatten) =
      Res.ok ⟨⟨hdr1, hdr2, hdr3⟩, ks, base58Encode hb, cis⟩ := by
  have hB : ([hdr1, hdr2, hdr3] ++ goVarint ks.length ++
      (ks.map PublicKey.bytes).flatten ++ hb ++ goVarint cis.length ++
      (cis.map serInstrBytes).flatten) =
      hdr1 :: hdr2 :: hdr3 :: (goVarint ks.length ++
        ((ks.map PublicKey.bytes).flatten ++ (hb ++ (goVarint cis.length ++
          (cis.map serInstrBytes).flatten)))) := by
    simp [List.append_assoc]
  have hlen1 : ¬ (((ks.map PublicKey.bytes).flatten ++ (hb ++ (goVarint cis.length ++
      (cis.map serInstrBytes).flatten))).length < ks.length * 32) := by
    rw [List.length_append, flatten_keys_length ks hkwf]
    omega
  have htake2 : (hb ++ (goVarint cis.length ++ (cis.map serInstrBytes).flatten)).take 32 =
      hb := by
    rw [← hhb]; exact List.take_left _ _
  have hdrop2 : (hb ++ (goVarint cis.length ++ (cis.map serInstrBytes).flatten)).drop 32 =
      goVarint cis.length ++ (cis.map serInstrBytes).flatten := by
    rw [← hhb]; exact List.drop_left _ _
  have hlen2 : ¬ ((hb ++ (goVarint cis.length ++ (cis.map serInstrBytes).flatten)).length <
      32) := by
    rw [List.length_append, hhb]
    omega
  have hpi : parseInstrList cis.length ((cis.map serInstrBytes).flatten) =
      Res.ok (cis, []) := by
    have := parseInstrList_roundtrip cis [] hsmall
    rwa [List.append_nil] at this
  rw [hB]
  unfold MessageDeserialize
  simp only [parseHeaderByte_byte hdr1 _ h1, parseHeaderByte_byte hdr2 _ h2,
    parseHeaderByte_byte hdr3 _ h3,
    parseUvarint_goVarint ks.length _ hklen,
    parseUvarint_goVarint cis.length _ hilen,
    readKeys_append ks _ hkwf,
    if_neg hlen1, if_neg hlen2, htake2, hdrop2, hpi]

/-- Total size of the canonical account list is the sum of the four
bucket sizes. -/
theorem nmPublicKeys_length (feePayer : PublicKey) (entries : List AccountMeta) :
    (nmPublicKeys feePayer entries).length =
      (nmWS feePayer entries).length + (nmROS feePayer entries).length +
        (nmWU feePayer entries).length + (nmRU feePayer entries).length := by
  simp [nmPublicKeys]
  omega

/-- Claim C3 (amended): for every message produced by `NewMessage`,
deserializing its serialization reproduces the message exactly —
provided serialization does not panic (nonempty instruction list, every
instruction with a nonempty account list) and the raw-byte wire fields
stay below the varint continuation bit (at most 127 accounts, payloads
shorter than 128 bytes) and the block-hash text canonically encodes
exactly 32 bytes. -/
theorem claim_C3_roundTrip
    (feePayer : PublicKey) (instructions : List Instruction) (bh : String)
    (entries : List AccountMeta) (hb : List Nat)
    (hperm : entries.Perm (accountMap instructions))
    (hne : instructions ≠ [])
    (haccs : ∀ ins ∈ instructions, ins.accounts ≠ [])
    (halen : ∀ ins ∈ instructions, ins.accounts.length < 2 ^ 70)
    (hilen : instructions.length < 2 ^ 70)
    (hdlen : ∀ ins ∈ instructions, ins.data.length < 128)
    (hsize : (nmPublicKeys feePayer entries).length ≤ 127)
    (hkwf : ∀ k ∈ nmPublicKeys feePayer entries, k.bytes.length = 32)
    (hhdec : base58Decode bh = Except.ok hb)
    (hhlen : hb.length = 32)
    (hhenc : base58Encode hb = bh) :
    roundTrip (NewMessage feePayer instructions bh entries) =
      Res.ok (NewMessage feePayer instructions bh entries) := by
  set m := NewMessage feePayer instructions bh entries with hm
  have hmacc : m.accounts = nmPublicKeys feePayer entries := rfl
  obtain ⟨ins0, hins0⟩ := List.exists_mem_of_ne_nil instructions hne
  have hacc_ne : m.accounts ≠ [] := by
    rw [hmacc]
    exact List.ne_nil_of_mem (mentioned_mem_nmPublicKeys feePayer instructions entries hperm
      ins0.programID (mention_ne_nil_of_programID instructions ins0 hins0))
  have hins_ne : m.instructions ≠ [] := by
    simp only [hm, NewMessage]
    simpa using hne
  have haccs' : ∀ ci ∈ m.instructions, ci.accounts ≠ [] := by
    intro ci hci
    obtain ⟨ins, hins, rfl⟩ := List.mem_map.mp hci
    simpa using haccs ins hins
  have hbl := nm_bucket_lengths feePayer entries
  have hlensum := nmPublicKeys_length feePayer entries
  have hs1 : m.header.numRequireSignatures =
      (nmWS feePayer entries).length + (nmROS feePayer entries).length := by
    show ((nmWS feePayer entries).length + (nmROS feePayer entries).length) % 256 = _
    omega
  have hs2 : m.header.numReadonlySignedAccounts = (nmROS feePayer entries).length := by
    show (nmROS feePayer entries).length % 256 = _
    omega
  have hs3 : m.header.numReadonlyUnsignedAccounts = (nmRU feePayer entries).length := by
    show (nmRU feePayer entries).length % 256 = _
    omega
  have h1 : m.header.numRequireSignatures < 128 := by omega
  have h2 : m.header.numReadonlySignedAccounts < 128 := by omega
  have h3 : m.header.numReadonlyUnsignedAccounts < 128 := by omega
  have hsmall : ∀ ci ∈ m.instructions, instrSmall ci := by
    intro ci hci
    have hidx := nm_indices_lt feePayer instructions bh entries hperm ci hci
    obtain ⟨ins, hins, rfl⟩ := List.mem_map.mp hci
    refine ⟨by omega, ?_, ?_, by simpa using haccs ins hins, by simpa using halen ins hins⟩
    · intro i hi
      have := hidx.2 i hi
      omega
    · simpa using hdlen ins hins
  have hser := serialize_eq m hb hacc_ne hins_ne haccs' (by exact hhdec)
  have hm1 : m.header.numRequireSignatures % 256 = m.header.numRequireSignatures := by omega
  have hm2 : m.header.numReadonlySignedAccounts % 256 =
      m.header.numReadonlySignedAccounts := by omega
  have hm3 : m.header.numReadonlyUnsignedAccounts % 256 =
      m.header.numReadonlyUnsignedAccounts := by omega
  rw [hm1, hm2, hm3] at hser
  have hdes := deserialize_eq m.header.numRequireSignatures
    m.header.numReadonlySignedAccounts m.header.numReadonlyUnsignedAccounts
    m.accounts hb m.instructions h1 h2 h3 (hmacc ▸ hkwf)
    (by rw [hmacc] at *; omega) hhlen
    (by simp only [hm, NewMessage]; simpa using hilen) hsmall
  rw [hhenc] at hdes
  unfold roundTrip
  rw [hser]
  show MessageDeserialize _ = _
  rw [hdes]
  rfl

/-- Four-way privilege partition of any entry list. -/
theorem countP_partition (l : List AccountMeta) :
    l.countP (fun a => a.isSigner) + l.countP (fun a => !a.isSigner && a.isWritable) +
      l.countP (fun a => !a.isSigner && !a.isWritable) = l.length := by
  have h1 := countP_and_split (fun a : AccountMeta => !a.isSigner)
    (fun a : AccountMeta => a.isWritable) l
  have h2 := countP_add_countP_not (fun a : AccountMeta => a.isSigner) l
  omega

/-! ## Claim theorems -/

/-- Claim C4: whenever a fee payer is designated, it is the first
account of the compiled message, it heads the writable-signed tier, and
it contributes one unconditional signature slot to
`NumRequireSignatures` on top of the signers merged from the
instructions (with the fee payer itself excluded from that merge count),
regardless of whether any instruction marked it signer or writable. -/
theorem claim_C4_feePayer_placement (feePayer : PublicKey) (instructions : List Instruction)
    (recentBlockHash : String) (entries : List AccountMeta)
    (hperm : entries.Perm (accountMap instructions))
    (hfp : feePayer ≠ ZeroPublicKey) :
    (NewMessage feePayer instructions recentBlockHash entries).accounts.head? = some feePayer ∧
      (nmWS feePayer entries).head? = some feePayer ∧
      (NewMessage feePayer instructions recentBlockHash entries).header.numRequireSignatures =
        (1 + ((accountMap instructions).filter
          (fun a => !(decide (feePayer = a.pubKey)))).countP (fun a => a.isSigner)) % 256 := by
  have hws : nmWS feePayer entries =
      feePayer :: (classifyAll (nmToClassify feePayer entries)).1 := by
    rw [nmWS, if_neg hfp]
  refine ⟨?_, ?_, ?_⟩
  · show (nmPublicKeys feePayer entries).head? = some feePayer
    rw [nmPublicKeys, hws]
    rfl
  · rw [hws]
    rfl
  · show ((nmWS feePayer entries).length + (nmROS feePayer entries).length) % 256 = _
    obtain ⟨hros, _, _, hws'⟩ := nm_bucket_lengths feePayer entries
    rw [hws', hros, if_neg hfp]
    have hsplit := countP_and_split (fun a : AccountMeta => a.isSigner)
      (fun a : AccountMeta => a.isWritable) (nmToClassify feePayer entries)
    have hpermf := (hperm.filter (fun a => !(decide (feePayer = a.pubKey)))).countP_eq
      (fun a : AccountMeta => a.isSigner)
    have htc : nmToClassify feePayer entries =
        entries.filter (fun a => !(decide (feePayer = a.pubKey))) := by
      rw [nmToClassify, if_neg hfp]
    rw [htc] at hsplit ⊢
    omega

/-- Claim C5: the merged privilege of every identity in the account map
is the logical OR of all per-instruction flags recorded for it — a
program-id mention contributes `(false, false)`; privilege is never
downgraded. -/
theorem claim_C5_privilege_monotonic (instructions : List Instruction) (k : PublicKey)
    (meta : AccountMeta) (h : lookupMeta (accountMap instructions) k = some meta) :
    meta.pubKey = k ∧
      meta.isSigner = (mentionFlags k instructions).any (·.1) ∧
      meta.isWritable = (mentionFlags k instructions).any (·.2) := by
  rw [lookupMeta_accountMap] at h
  by_cases he : (mentionFlags k instructions).isEmpty
  · rw [if_pos he] at h
    exact absurd h (by simp)
  · rw [if_neg he] at h
    have := Option.some_injective _ h
    rw [← this]
    exact ⟨rfl, rfl, rfl⟩

/-- Claim C6 (amended): the header counts are the tier counts of the
effective merged privileges — the instruction-merged map with the fee
payer overridden to writable-signed — each reduced modulo 256 by the
`uint8` casts; the remaining accounts are exactly the writable-unsigned
ones. -/
theorem claim_C6_tier_arithmetic (feePayer : PublicKey) (instructions : List Instruction)
    (recentBlockHash : String) (entries : List AccountMeta)
    (hperm : entries.Perm (accountMap instructions)) :
    (NewMessage feePayer instructions recentBlockHash entries).header.numRequireSignatures =
        (effectiveMetas feePayer instructions).countP (fun a => a.isSigner) % 256 ∧
      (NewMessage feePayer instructions recentBlockHash entries).header.numReadonlySignedAccounts =
        (effectiveMetas feePayer instructions).countP
          (fun a => a.isSigner && !a.isWritable) % 256 ∧
      (NewMessage feePayer instructions recentBlockHash
          entries).header.numReadonlyUnsignedAccounts =
        (effectiveMetas feePayer instructions).countP
          (fun a => !a.isSigner && !a.isWritable) % 256 ∧
      (NewMessage feePayer instructions recentBlockHash entries).accounts.length =
        (effectiveMetas feePayer instructions).length ∧
      (effectiveMetas feePayer instructions).countP (fun a => a.isSigner) +
          (effectiveMetas feePayer instructions).countP
            (fun a => !a.isSigner && a.isWritable) +
          (effectiveMetas feePayer instructions).countP
            (fun a => !a.isSigner && !a.isWritable) =
        (effectiveMetas feePayer instructions).length := by
  obtain ⟨hros, hwu, hru, hws⟩ := nm_bucket_lengths feePayer entries
  have hlensum := nmPublicKeys_length feePayer entries
  have hsplitS := countP_and_split (fun a : AccountMeta => a.isSigner)
    (fun a : AccountMeta => a.isWritable) (nmToClassify feePayer entries)
  have hsplitN := countP_and_split (fun a : AccountMeta => !a.isSigner)
    (fun a : AccountMeta => a.isWritable) (nmToClassify feePayer entries)
  have htot := countP_add_countP_not (fun a : AccountMeta => a.isSigner)
    (nmToClassify feePayer entries)
  have hpart := countP_partition (effectiveMetas feePayer instructions)
  by_cases hfp : feePayer = ZeroPublicKey
  · have heff : effectiveMetas feePayer instructions = accountMap instructions := by
      rw [effectiveMetas, if_pos hfp]
    have hc1 := hperm.countP_eq (fun a : AccountMeta => a.isSigner && a.isWritable)
    have hc2 := hperm.countP_eq (fun a : AccountMeta => a.isSigner && !a.isWritable)
    have hc4 := hperm.countP_eq (fun a : AccountMeta => !a.isSigner && !a.isWritable)
    have hc5 := hperm.countP_eq (fun a : AccountMeta => a.isSigner)
    have hlen := hperm.length_eq
    rw [show nmToClassify feePayer entries = entries from by rw [nmToClassify, if_pos hfp]]
      at hros hwu hru hws hsplitS hsplitN htot
    refine ⟨?_, ?_, ?_, ?_, ?_⟩
    · show ((nmWS feePayer entries).length + (nmROS feePayer entries).length) % 256 = _
      rw [hws, if_pos hfp, hros, heff]
      omega
    · show (nmROS feePayer entries).length % 256 = _
      rw [hros, heff]
      omega
    · show (nmRU feePayer entries).length % 256 = _
      rw [hru, heff]
      omega
    · show (nmPublicKeys feePayer entries).length = _
      rw [hlensum, hws, if_pos hfp, hros, hwu, hru, heff]
      omega
    · exact hpart
  · have heff : effectiveMetas feePayer instructions =
        (⟨feePayer, true, true⟩ : AccountMeta) ::
          (accountMap instructions).filter (fun a => !(decide (feePayer = a.pubKey))) := by
      rw [effectiveMetas, if_neg hfp]
    have hpermf := hperm.filter (fun a => !(decide (feePayer = a.pubKey)))
    have hc1 := hpermf.countP_eq (fun a : AccountMeta => a.isSigner && a.isWritable)
    have hc2 := hpermf.countP_eq (fun a : AccountMeta => a.isSigner && !a.isWritable)
    have hc4 := hpermf.countP_eq (fun a : AccountMeta => !a.isSigner && !a.isWritable)
    have hc5 := hpermf.countP_eq (fun a : AccountMeta => a.isSigner)
    have hlen := hpermf.length_eq
    rw [show nmToClassify feePayer entries =
        entries.filter (fun a => !(decide (feePayer = a.pubKey))) from by
      rw [nmToClassify, if_neg hfp]] at hros hwu hru hws hsplitS hsplitN htot
    refine ⟨?_, ?_, ?_, ?_, ?_⟩
    · show ((nmWS feePayer entries).length + (nmROS feePayer entries).length) % 256 = _
      rw [hws, if_neg hfp, hros, heff, List.countP_cons]
      simp
      omega
    · show (nmROS feePayer entries).length % 256 = _
      rw [hros, heff, List.countP_cons]
      simp
      omega
    · show (nmRU feePayer entries).length % 256 = _
      rw [hru, heff, List.countP_cons]
      simp
      omega
    · show (nmPublicKeys feePayer entries).length = _
      rw [hlensum, hws, if_neg hfp, hros, hwu, hru, heff, List.length_cons]
      omega
    · exact hpart

/-- Claim C8: every compiled program index and account index of a
message built by `NewMessage` resolves strictly inside the canonical
account list, for every map iteration order. -/
theorem claim_C8_index_bounds (feePayer : PublicKey) (instructions : List Instruction)
    (recentBlockHash : String) (entries : List AccountMeta)
    (hperm : entries.Perm (accountMap instructions)) :
    ∀ ci ∈ (NewMessage feePayer instructions recentBlockHash entries).instructions,
      ci.programIDIndex <
          (NewMessage feePayer instructions recentBlockHash entries).accounts.length ∧
        ∀ i ∈ ci.accounts,
          i < (NewMessage feePayer instructions recentBlockHash entries).accounts.length :=
  nm_indices_lt feePayer instructions recentBlockHash entries hperm

/-- Claim C1: the serialized output of `NewMessage` depends on the map
iteration order — two valid iteration orders of the same account map
content, for the same instruction sequence, fee payer and block hash,
serialize to different bytes.  The Go code iterates an unordered
`map`, so recompiling identical input need not reproduce identical
output. -/
theorem claim_C1_order_dependence :
    c1OrderA.Perm (accountMap c1Instrs) ∧
      c1OrderB.Perm (accountMap c1Instrs) ∧
      (serOk (Message.serialize (NewMessage (pkOf 1) c1Instrs hash32 c1OrderA))).isSome =
        true ∧
      (serOk (Message.serialize (NewMessage (pkOf 1) c1Instrs hash32 c1OrderB))).isSome =
        true ∧
      Message.serialize (NewMessage (pkOf 1) c1Instrs hash32 c1OrderA) ≠
        Message.serialize (NewMessage (pkOf 1) c1Instrs hash32 c1OrderB) := by
  set_option maxRecDepth 40000 in decide

/-- Claim C2: deserializing a strict prefix of a valid serialized
message can panic instead of returning a decode error — truncating the
spec §8 scenario message by its final byte drives
`messageData[:dataLen]` out of bounds at `message.go:113`. -/
theorem claim_C2_truncation_panic :
    Message.serialize specMessage = Res.ok specBytes ∧
      specBytes.length = 139 ∧
      MessageDeserialize (specBytes.take 138) = Res.panic := by
  set_option maxRecDepth 40000 in decide

/-- Claim C3 counterexample: a message produced by `NewMessage` from a
single instruction with a 128-byte payload and a valid 32-byte block
hash serializes successfully, deserializes successfully, and yet the
parsed instruction list differs from the original (the raw length byte
`0x80` is read back as a varint continuation). -/
theorem claim_C3_counterexample :
    c3Entries.Perm (accountMap c3Instrs) ∧
      base58Decode hash32 = Except.ok (List.replicate 32 0) ∧
      (desOk (roundTrip c3Message)).isSome = true ∧
      (desOk (roundTrip c3Message)).map Message.instructions ≠
        some c3Message.instructions := by
  set_option maxRecDepth 40000 in decide

/-- Witness for claim C3: the spec §8 scenario round-trips exactly. -/
theorem claim_C3_witness : roundTrip specMessage = Res.ok specMessage :=
  claim_C3_roundTrip (pkOf 1) specInstrs hash32 specEntries (List.replicate 32 0)
    (by decide) (by decide) (by decide) (by decide) (by decide) (by decide) (by decide)
    (by decide) (by decide) (by decide) (by decide)

/-- Witness for claim C4 at the spec §8 scenario. -/
theorem claim_C4_witness :
    (NewMessage (pkOf 1) specInstrs hash32 specEntries).accounts.head? = some (pkOf 1) ∧
      (nmWS (pkOf 1) specEntries).head? = some (pkOf 1) ∧
      (NewMessage (pkOf 1) specInstrs hash32 specEntries).header.numRequireSignatures =
        (1 + ((accountMap specInstrs).filter
          (fun a => !(decide (pkOf 1 = a.pubKey)))).countP (fun a => a.isSigner)) % 256 :=
  claim_C4_feePayer_placement (pkOf 1) specInstrs hash32 specEntries (by decide) (by decide)

/-- Witness for claim C5: the merged entry for `A` in the spec §8
scenario. -/
theorem claim_C5_witness :
    (⟨pkOf 1, true, true⟩ : AccountMeta).pubKey = pkOf 1 ∧
      (⟨pkOf 1, true, true⟩ : AccountMeta).isSigner =
        (mentionFlags (pkOf 1) specInstrs).any (·.1) ∧
      (⟨pkOf 1, true, true⟩ : AccountMeta).isWritable =
        (mentionFlags (pkOf 1) specInstrs).any (·.2) :=
  claim_C5_privilege_monotonic specInstrs (pkOf 1) ⟨pkOf 1, true, true⟩ (by decide)

/-- Claim C6 counterexample: with a fee payer that no instruction
mentions, `NumRequireSignatures` is 1 while the number of identities
whose instruction-merged `isSigner` is true is 0 — the literal tier
arithmetic fails unless the fee-payer override is counted. -/
theorem claim_C6_counterexample :
    c6Entries.Perm (accountMap c6Instrs) ∧
      (NewMessage (pkOf 1) c6Instrs hash32 c6Entries).header.numRequireSignatures = 1 ∧
      (accountMap c6Instrs).countP (fun a => a.isSigner) = 0 := by
  set_option maxRecDepth 40000 in decide

/-- Witness for claim C6 at the spec §8 scenario. -/
theorem claim_C6_witness :
    (NewMessage (pkOf 1) specInstrs hash32 specEntries).header.numRequireSignatures =
        (effectiveMetas (pkOf 1) specInstrs).countP (fun a => a.isSigner) % 256 ∧
      (NewMessage (pkOf 1) specInstrs hash32 specEntries).header.numReadonlySignedAccounts =
        (effectiveMetas (pkOf 1) specInstrs).countP
          (fun a => a.isSigner && !a.isWritable) % 256 ∧
      (NewMessage (pkOf 1) specInstrs hash32 specEntries).header.numReadonlyUnsignedAccounts =
        (effectiveMetas (pkOf 1) specInstrs).countP
          (fun a => !a.isSigner && !a.isWritable) % 256 ∧
      (NewMessage (pkOf 1) specInstrs hash32 specEntries).accounts.length =
        (effectiveMetas (pkOf 1) specInstrs).length ∧
      (effectiveMetas (pkOf 1) specInstrs).countP (fun a => a.isSigner) +
          (effectiveMetas (pkOf 1) specInstrs).countP
            (fun a => !a.isSigner && a.isWritable) +
          (effectiveMetas (pkOf 1) specInstrs).countP
            (fun a => !a.isSigner && !a.isWritable) =
        (effectiveMetas (pkOf 1) specInstrs).length :=
  claim_C6_tier_arithmetic (pkOf 1) specInstrs hash32 specEntries (by decide)

/-- Claim C7: `Serialize` does not reject a block-hash text that
decodes to other than 32 bytes — `"2"` is valid base58 decoding to the
single byte `[1]`, yet serialization succeeds, emitting a 43-byte image
(a 32-byte hash would give 74 bytes). -/
theorem claim_C7_no_length_check :
    base58Decode "2" = Except.ok [1] ∧
      (serOk (Message.serialize c7Message)).map List.length = some 43 := by
  set_option maxRecDepth 40000 in decide

/-- Witness for claim C8 at the spec §8 scenario: the compiled program
index 2 resolves inside the 3-element account list. -/
theorem claim_C8_witness :
    (⟨2, [0, 1], [9]⟩ : CompiledInstruction).programIDIndex <
      (NewMessage (pkOf 1) specInstrs hash32 specEntries).accounts.length :=
  (claim_C8_index_bounds (pkOf 1) specInstrs hash32 specEntries (by decide)
    ⟨2, [0, 1], [9]⟩ (by decide)).1

/-- Claim C9: a 256-byte instruction payload is not rejected — the
single-byte wire length field silently wraps to 0 (`byte(256) = 0`)
while all 256 payload bytes are still emitted, so the 329-byte output
carries a corrupt length at offset 72. -/
theorem claim_C9_silent_overflow :
    c9Message.instructions.map (fun ci => ci.data.length) = [256] ∧
      (serOk (Message.serialize c9Message)).map List.length = some 329 ∧
      (serOk (Message.serialize c9Message)).bind (fun bs => bs[72]?) = some 0 := by
  set_option maxRecDepth 40000 in decide

/-- Claim C10 counterexample: a message with an empty instruction list
but an undecodable block-hash text returns the base58 error rather than
panicking — the hash is decoded before the instruction count is
encoded, so "Serialize panics on any Message with empty Instructions"
does not hold unconditionally. -/
theorem claim_C10_counterexample :
    c10BadHashMessage.instructions = [] ∧
      Message.serialize c10BadHashMessage ≠ Res.panic := by
  set_option maxRecDepth 40000 in decide

/-- Claim C10 (amended): `UintToVarLenBytes 0` panics; on every nonzero
input it returns exactly the bytes `binary.PutUvarint` wrote, which for
values in the 64-bit range is the minimal little-endian base-128 varint
(e.g. 300 encodes to `0xAC 0x02`) and parses back to the value;
consequently `Serialize` panics on every message with an empty account
list, and on every message with an empty instruction list whose
block-hash text decodes successfully. -/
theorem claim_C10_varint_behavior :
    UintToVarLenBytes 0 = none ∧
      (∀ n : Nat, n ≠ 0 → UintToVarLenBytes n = some (goVarint n)) ∧
      (∀ n : Nat, n < 2 ^ 70 → parseUvarint (goVarint n) = Except.ok (n, [])) ∧
      (∀ m : Message, m.accounts = [] → Message.serialize m = Res.panic) ∧
      (∀ m : Message, m.instructions = [] →
        (∃ hb, base58Decode m.recentBlockHash = Except.ok hb) →
        Message.serialize m = Res.panic) ∧
      UintToVarLenBytes 300 = some [172, 2] := by
  refine ⟨UintToVarLenBytes_zero, UintToVarLenBytes_pos, ?_, ?_, ?_, by decide⟩
  · intro n hn
    have := parseUvarint_goVarint n [] hn
    rwa [List.append_nil] at this
  · intro m h
    simp [Message.serialize, h, UintToVarLenBytes_zero]
  · intro m h hdec
    obtain ⟨hb, hdec⟩ := hdec
    rcases hval : UintToVarLenBytes m.accounts.length with _ | v
    · simp [Message.serialize, hval]
    · simp [Message.serialize, hval, hdec, h, UintToVarLenBytes_zero]

/-- Witness for claim C10: serializing a message with an empty account
list panics. -/
theorem claim_C10_witness : Message.serialize c10EmptyAccounts = Res.panic :=
  claim_C10_varint_behavior.2.2.2.1 c10EmptyAccounts rfl

end SolanaSdk
